import Mathlib

/-!
Shallow embedding of `src/crew_matching_app.py` (Crew Matching Tool).

Coordinates are modelled by `ℚ` (the Python source computes with floats; all
claim-relevant behaviour is order/threshold comparisons). Python dictionaries
are modelled by association lists, Python sets by lists up to membership.
-/

namespace Crew

/-- A positioned word as produced by `page.extract_words`: the dictionary keys
`text`, `x0`, `x1`, `top`, `bottom` used by the source. -/
structure Word where
  text : String
  x0 : ℚ
  x1 : ℚ
  top : ℚ
  bottom : ℚ
deriving DecidableEq

/-- Python 3 `round` to an integer: round-half-to-even (banker's rounding). -/
def pyRound (x : ℚ) : ℤ :=
  let f := ⌊x⌋
  let r := x - (f : ℚ)
  if r < 1/2 then f
  else if 1/2 < r then f + 1
  else if f % 2 = 0 then f else f + 1

/-- Vertical center `(w["top"] + w["bottom"]) / 2` (line 18 of the source). -/
def yCenter (w : Word) : ℚ := (w.top + w.bottom) / 2

/-- Bucket key `round(yc / tol)` (line 19 of the source). -/
def bucketKey (tol : ℚ) (w : Word) : ℤ := pyRound (yCenter w / tol)

/-- Stable insertion of an element into a sorted list. -/
def insertSorted (le : α → α → Bool) (a : α) : List α → List α
  | [] => [a]
  | b :: bs => if le b a then b :: insertSorted le a bs else a :: b :: bs

/-- Insertion sort, modelling Python `sorted` (the source only sorts lists
whose sort keys are pairwise distinct or whose tie order no claim observes). -/
def sortBy (le : α → α → Bool) : List α → List α
  | [] => []
  | a :: as => insertSorted le a (sortBy le as)

/-- Boolean order on bucket keys. -/
def leKey (a b : ℤ) : Bool := decide (a ≤ b)

/-- Boolean order on words by left coordinate `x0`. -/
def leX0 (a b : Word) : Bool := decide (a.x0 ≤ b.x0)

/-- Embedding of `cluster_rows` (source lines 14-21): group words by the
bucket key of their vertical center, order the buckets by key, order each
bucket by `x0`.  The Python dict accumulates each bucket in input order and
`sorted(rows.items(), key=kv[0])` orders buckets by key, which the
key-filtering below reproduces. -/
def cluster_rows (words : List Word) (tol : ℚ) : List (List Word) :=
  let keys := (words.map (bucketKey tol)).dedup
  (sortBy leKey keys).map (fun k =>
    sortBy leX0 (words.filter (fun w => bucketKey tol w == k)))

end Crew

namespace Crew

/-- Python `str.upper()` on one character (ASCII case folding suffices for
the pilot codes, roles and markers handled by the source). -/
def upChar (c : Char) : Char := if 'a' ≤ c && c ≤ 'z' then Char.ofNat (c.toNat - 32) else c

/-- Python `str.upper()`. -/
def upStr (s : String) : String := String.mk (s.toList.map upChar)

def isSpaceChar (c : Char) : Bool := c == ' ' || c == '\t' || c == '\n' || c == '\r'

/-- Python `str.strip()`. -/
def trimStr (s : String) : String :=
  String.mk (((s.toList.dropWhile isSpaceChar).reverse.dropWhile isSpaceChar).reverse)

/-- Python `int` of a (decimal digit) character list. -/
def natOfDigits (cs : List Char) : Nat := cs.foldl (fun a c => 10 * a + (c.toNat - 48)) 0

/-- Characters of `s.lstrip("0")`. -/
def stripZeros (s : String) : List Char := s.toList.dropWhile (fun c => c == '0')

/-- Source line 38: `w["text"].lstrip("0").isdigit() and 1 <= int(...) <= 31`. -/
def isDayWord (w : Word) : Bool :=
  let t := stripZeros w.text
  !t.isEmpty && t.all Char.isDigit && decide (1 ≤ natOfDigits t) && decide (natOfDigits t ≤ 31)

/-- Source line 44: `str(int(w["text"].lstrip("0")))`, the normalized day label. -/
def dayStr (s : String) : String := toString (natOfDigits (stripZeros s))

/-- Horizontal center `(w["x0"] + w["x1"]) / 2`. -/
def xCenter (w : Word) : ℚ := (w.x0 + w.x1) / 2

/-- Source line 44: day label -> horizontal center, for the selected header row. -/
def day_cols (best_row : List Word) : List (String × ℚ) :=
  best_row.map (fun w => (dayStr w.text, xCenter w))

/-- Python `max(l, key=f)` for nonempty `l`: first element with maximal key. -/
def pyMaxBy (f : α → Nat) : List α → Option α
  | [] => none
  | x :: xs => some (xs.foldl (fun best c => if f best < f c then c else best) x)

/-- Python `min(l, key=f)` for nonempty `l`: first element with minimal key. -/
def pyMinBy (f : α → ℚ) : List α → Option α
  | [] => none
  | x :: xs => some (xs.foldl (fun best c => if f c < f best then c else best) x)

/-- Source line 102: `min(day_cols.keys(), key=lambda d: abs(day_cols[d] - xcenter))`. -/
def nearest_day (cols : List (String × ℚ)) (x : ℚ) : Option String :=
  (pyMinBy (fun p => |p.2 - x|) cols).map (fun p => p.1)

/-- Source line 43: `len({w["text"] for w in r})`. -/
def distinctTextCount (r : List Word) : Nat := ((r.map (fun w => w.text)).dedup).length

/-- Source line 52: `" ".join(w["text"] for w in row)`. -/
def text_line (row : List Word) : String := String.intercalate " " (row.map (fun w => w.text))

def isUpperAZ (c : Char) : Bool := decide ('A' ≤ c) && decide (c ≤ 'Z')

/-- Consume an optional closing parenthesis. -/
def dropCloseParen : List Char → List Char
  | ')' :: t => t
  | t => t

/-- One attempted match of the pattern from source line 53 at the head of the
input: an optional opening parenthesis, a greedy run of two or three uppercase
letters (the capture), an optional closing parenthesis.  Returns the captured
group and the remaining input on success. -/
def matchCodeAt (cs : List Char) : Option (String × List Char) :=
  let cs1 := match cs with
    | '(' :: t => t
    | t => t
  match cs1 with
  | a :: b :: c :: rest =>
    if isUpperAZ a && isUpperAZ b && isUpperAZ c then
      some (String.mk [a, b, c], dropCloseParen rest)
    else if isUpperAZ a && isUpperAZ b then
      some (String.mk [a, b], dropCloseParen (c :: rest))
    else none
  | [a, b] => if isUpperAZ a && isUpperAZ b then some (String.mk [a, b], []) else none
  | _ => none

/-- Left-to-right non-overlapping scan, as `re.findall` does: try a match at
each position, skip past each successful match, otherwise advance one
character.  `fuel` bounds the recursion; any fuel at least the input length is
exact. -/
def scanCodes : Nat → List Char → List String
  | 0, _ => []
  | _, [] => []
  | fuel + 1, c :: rest =>
    match matchCodeAt (c :: rest) with
    | some (code, rest1) => code :: scanCodes fuel rest1
    | none => scanCodes fuel rest

/-- Source line 53: `re.findall(r"\(?([A-Z]\x7b2,3\x7d)\)?", text_line)`. -/
def findPilotCodes (s : String) : List String := scanCodes s.toList.length s.toList

/-- Source line 55: `not valid_pilots or m in valid_pilots` (`None` and the
empty collection are both falsy in Python). -/
def validPilotFilter (valid : Option (List String)) (m : String) : Bool :=
  match valid with
  | none => true
  | some v => v.isEmpty || v.contains m

/-- Pilot codes recognized in a row (source lines 53-55). -/
def pilotCodesOfRow (valid : Option (List String)) (row : List Word) : List String :=
  (findPilotCodes (text_line row)).filter (validPilotFilter valid)

/-- The record appended at source lines 59-63. -/
structure PilotRow where
  row_index : Nat
  pilot_codes : List String
  y_position : ℚ
deriving DecidableEq

/-- Average vertical center of a row (source lines 58 and 79). -/
def rowY (row : List Word) : ℚ := (row.map yCenter).sum / (row.length : ℚ)

/-- First pass (source lines 50-63): collect pilot rows with their indices and
average vertical positions, `i` being the running `enumerate` index. -/
def pilotRowsOfAux (valid : Option (List String)) : Nat → List (List Word) → List PilotRow
  | _, [] => []
  | i, row :: rest =>
    let codes := pilotCodesOfRow valid row
    if codes.isEmpty then pilotRowsOfAux valid (i + 1) rest
    else { row_index := i, pilot_codes := codes, y_position := rowY row } ::
      pilotRowsOfAux valid (i + 1) rest

def pilotRowsOf (valid : Option (List String)) (rows : List (List Word)) : List PilotRow :=
  pilotRowsOfAux valid 0 rows

/-- The loop of source lines 80-88: running minimum-distance pilot row among
those strictly above `ry`, ties kept at the earliest candidate. -/
def nearestPilotAboveAux (ry : ℚ) : Option (PilotRow × ℚ) → List PilotRow → Option (PilotRow × ℚ)
  | acc, [] => acc
  | acc, pr :: prs =>
    if pr.y_position < ry then
      match acc with
      | none => nearestPilotAboveAux ry (some (pr, ry - pr.y_position)) prs
      | some (best, d) =>
        if ry - pr.y_position < d then nearestPilotAboveAux ry (some (pr, ry - pr.y_position)) prs
        else nearestPilotAboveAux ry (some (best, d)) prs
    else nearestPilotAboveAux ry acc prs

def nearestPilotAbove (prs : List PilotRow) (ry : ℚ) : Option (PilotRow × ℚ) :=
  nearestPilotAboveAux ry none prs

/-- Source lines 74 and 98: `w["text"].strip().upper() == available_code.upper()`. -/
def markerB (code : String) (w : Word) : Bool := upStr (trimStr w.text) == upStr code

/-- Body of the second pass for one row (source lines 68-109): skip pilot
rows; skip rows without the availability marker; attribute the row to the
nearest pilot row strictly above, dropping it when none exists or the distance
exceeds 10.0; emit one `(day, pilot_code)` entry per marker token and credited
pilot code, the day being the nearest day column to the marker's horizontal
center. -/
def processRow (code : String) (prs : List PilotRow) (cols : List (String × ℚ))
    (i : Nat) (row : List Word) : List (String × String) :=
  if prs.any (fun pr => pr.row_index == i) then []
  else if !(row.any (markerB code)) then []
  else
    match nearestPilotAbove prs (rowY row) with
    | none => []
    | some (pr, d) =>
      if 10 < d then []
      else (row.filter (markerB code)).flatMap (fun w =>
        match nearest_day cols (xCenter w) with
        | none => []
        | some day => pr.pilot_codes.map (fun c => (day, c)))

/-- Second pass over all rows with the running `enumerate` index. -/
def secondPassAux (code : String) (prs : List PilotRow) (cols : List (String × ℚ)) :
    Nat → List (List Word) → List (String × String)
  | _, [] => []
  | i, row :: rest =>
    processRow code prs cols i row ++ secondPassAux code prs cols (i + 1) rest

/-- One iteration of the page loop (source lines 32-109): the day labels
contributed to `all_days` and the `(day, pilot_code)` availability entries
contributed by this page. -/
def processPage (code : String) (valid : Option (List String)) (words : List Word) :
    List String × List (String × String) :=
  if words.isEmpty then ([], [])
  else
    let day_words := words.filter isDayWord
    if day_words.isEmpty then ([], [])
    else
      let day_rows := cluster_rows day_words 6
      let best_row := (pyMaxBy distinctTextCount day_rows).getD []
      let cols := day_cols best_row
      let rows := cluster_rows words 6
      let prs := pilotRowsOf valid rows
      (cols.map (fun p => p.1), secondPassAux code prs cols 0 rows)

/-- Numeric order on normalized day strings (source line 111, `key=int`). -/
def leDayStr (a b : String) : Bool := decide (natOfDigits a.toList ≤ natOfDigits b.toList)

/-- Embedding of `parse_pdf_availability` (source lines 23-111), a page being
its extracted word list.  The day list is the numerically sorted union of the
per-page day-column keys; the availability map is represented by the flat list
of `(day, pilot_code)` entries added to it, in insertion order. -/
def parse_pdf_availability (pages : List (List Word)) (code : String)
    (valid : Option (List String)) : List String × List (String × String) :=
  let valid1 := valid.map (fun v => v.map upStr)
  let perPage := pages.map (processPage code valid1)
  let allDays := (perPage.flatMap (fun p => p.1)).dedup
  let contribs := perPage.flatMap (fun p => p.2)
  (sortBy leDayStr allDays, contribs)

/-- Keys of the accumulated availability map (the days that received at least
one pilot code). -/
def availabilityKeys (contribs : List (String × String)) : List String :=
  (contribs.map (fun e => e.1)).dedup

/-- The set of pilot codes recorded under one day of the availability map. -/
def availabilitySet (contribs : List (String × String)) (day : String) : List String :=
  ((contribs.filter (fun e => e.1 == day)).map (fun e => e.2)).dedup

end Crew

namespace Crew

/-- Role of a pilot code: `role_map.get(p, "").upper()` (source lines 114-115). -/
def roleOf (role_map : List (String × String)) (p : String) : String :=
  upStr ((role_map.lookup p).getD "")

/-- Embedding of `build_allowed_pairs` (source lines 113-117): partition the
available codes by role, then keep every PIC x SIC pair that is not an exact
member of the restriction set. -/
def build_allowed_pairs (available_codes : List String) (role_map : List (String × String))
    (restrictions_set : List (String × String)) :
    List String × List String × List (String × String) :=
  let PICs := available_codes.filter (fun p => roleOf role_map p == "PIC")
  let SICs := available_codes.filter (fun p => roleOf role_map p == "SIC")
  let allowed := (PICs.flatMap (fun pic => SICs.map (fun sic => (pic, sic)))).filter
    (fun pr => !(decide (pr ∈ restrictions_set)))
  (PICs, SICs, allowed)

/-- A list of pairings in which no left code repeats and no right code
repeats (the matching property of a set of edges). -/
def isMatchingB (m : List (String × String)) : Bool :=
  decide (m.Pairwise (fun p q => p.1 ≠ q.1 ∧ p.2 ≠ q.2))

/-- All sub-lists of the edge list that are matchings. -/
def candidateMatchings (edges : List (String × String)) : List (List (String × String)) :=
  edges.sublists.filter isMatchingB

/-- First list of maximal length. -/
def pickLongest (ls : List (List (String × String))) : List (String × String) :=
  ls.foldl (fun best c => if best.length < c.length then c else best) []

/-- The maximum matching number of the edge list: the largest size of any
sub-collection of edges forming a matching. -/
def matchingNumber (edges : List (String × String)) : Nat :=
  ((candidateMatchings edges).map List.length).foldl Nat.max 0

/-- Modelled from the spec: the call
`nx.algorithms.bipartite.maximum_matching(G, top_nodes=PICs)` at source line
124 runs library code (networkx Hopcroft-Karp) that is not part of this
repository; per the spec's contract for the Maximum Bipartite Matcher it
"computes a matching that maximizes the number of matched pairs" over the
graph whose edges are exactly `edges`.  It is modelled here by a canonical
maximum-cardinality matching drawn from the edge list.  The final filter
embeds source line 125, which keeps the PIC-keyed orientation of the
matching dictionary. -/
def max_bipartite_pairings (PICs SICs : List String) (edges : List (String × String)) :
    List (String × String) :=
  (pickLongest (candidateMatchings edges)).filter (fun p => decide (p.1 ∈ PICs))

end Crew

namespace Crew

/-- Sample token with vertical center 2.5 (top 2, bottom 3). -/
def tokA : Word := { text := "a", x0 := 0, x1 := 0, top := 2, bottom := 3 }

/-- Sample token with vertical center 3.5 (top 3, bottom 4). -/
def tokB : Word := { text := "b", x0 := 1, x1 := 1, top := 3, bottom := 4 }

end Crew

section SortLemmas

variable {α : Type _} (le : α → α → Bool)

theorem Crew.insertSorted_perm (a : α) (l : List α) :
    (Crew.insertSorted le a l).Perm (a :: l) := by
  induction l with
  | nil => simp [Crew.insertSorted]
  | cons b bs ih =>
    by_cases h : le b a
    · simpa [Crew.insertSorted, h] using
        ((ih.cons b).trans (List.Perm.swap a b bs))
    · simp [Crew.insertSorted, h]

theorem Crew.sortBy_perm (l : List α) : (Crew.sortBy le l).Perm l := by
  induction l with
  | nil => simp [Crew.sortBy]
  | cons a as ih =>
    exact (Crew.insertSorted_perm le a (Crew.sortBy le as)).trans (ih.cons a)

theorem Crew.insertSorted_pairwise
    (total : ∀ a b : α, le a b ∨ le b a)
    (trans : ∀ a b c : α, le a b → le b c → le a c)
    (a : α) (l : List α) (h : l.Pairwise (fun x y => le x y = true)) :
    (Crew.insertSorted le a l).Pairwise (fun x y => le x y = true) := by
  induction l with
  | nil => simp [Crew.insertSorted]
  | cons b bs ih =>
    rcases List.pairwise_cons.1 h with ⟨hb, hbs⟩
    by_cases hba : le b a
    · have htail := ih hbs
      simp only [Crew.insertSorted, hba, if_true]
      refine List.pairwise_cons.2 ⟨?_, htail⟩
      intro x hx
      have hx' : x ∈ a :: bs := (Crew.insertSorted_perm le a bs).mem_iff.1 hx
      rcases List.mem_cons.1 hx' with rfl | hxbs
      · exact hba
      · exact hb x hxbs
    · have hab : le a b := (total a b).resolve_right (fun hc => hba hc)
      simp only [Crew.insertSorted, hba, if_false]
      refine List.pairwise_cons.2 ⟨?_, h⟩
      intro x hx
      rcases List.mem_cons.1 hx with rfl | hxbs
      · exact hab
      · exact trans a b x hab (hb x hxbs)

theorem Crew.sortBy_pairwise
    (total : ∀ a b : α, le a b ∨ le b a)
    (trans : ∀ a b c : α, le a b → le b c → le a c)
    (l : List α) :
    (Crew.sortBy le l).Pairwise (fun x y => le x y = true) := by
  induction l with
  | nil => simp [Crew.sortBy]
  | cons a as ih =>
    exact Crew.insertSorted_pairwise le total trans a (Crew.sortBy le as) ih

end SortLemmas

namespace Crew

/-! Helper lemmas about the matcher model. -/

theorem foldl_pick_mem (ls : List (List β)) (init : List β) :
    ls.foldl (fun best c => if best.length < c.length then c else best) init ∈ ls ∨
      ls.foldl (fun best c => if best.length < c.length then c else best) init = init := by
  induction ls generalizing init with
  | nil => right; rfl
  | cons c cs ih =>
    simp only [List.foldl_cons]
    rcases ih (if init.length < c.length then c else init) with h | h
    · left; exact List.mem_cons_of_mem _ h
    · by_cases hc : init.length < c.length
      · left; rw [h, if_pos hc]; exact List.mem_cons_self _ _
      · right; rw [h, if_neg hc]

theorem foldl_pick_length (ls : List (List β)) (init : List β) :
    (ls.foldl (fun best c => if best.length < c.length then c else best) init).length =
      (ls.map List.length).foldl Nat.max init.length := by
  induction ls generalizing init with
  | nil => rfl
  | cons c cs ih =>
    simp only [List.foldl_cons, List.map_cons]
    rw [ih]
    congr 1
    have hmax : Nat.max init.length c.length =
        if init.length ≤ c.length then c.length else init.length := rfl
    rw [hmax]
    by_cases hc : init.length < c.length
    · rw [if_pos hc, if_pos (Nat.le_of_lt hc)]
    · rw [if_neg hc]
      by_cases hc2 : init.length ≤ c.length
      · rw [if_pos hc2]; omega
      · rw [if_neg hc2]

theorem le_foldl_max (ns : List Nat) (init : Nat) :
    (∀ n ∈ ns, n ≤ ns.foldl Nat.max init) ∧ init ≤ ns.foldl Nat.max init := by
  induction ns generalizing init with
  | nil => exact ⟨by simp, Nat.le_refl _⟩
  | cons m ms ih =>
    rcases ih (Nat.max init m) with ⟨hall, hinit⟩
    refine ⟨?_, ?_⟩
    · intro n hn
      rcases List.mem_cons.1 hn with rfl | hn'
      · exact Nat.le_trans (Nat.le_max_right init n) hinit
      · exact hall n hn'
    · exact Nat.le_trans (Nat.le_max_left init m) hinit

theorem isMatchingB_iff (m : List (String × String)) :
    isMatchingB m = true ↔ m.Pairwise (fun p q => p.1 ≠ q.1 ∧ p.2 ≠ q.2) := by
  simp [isMatchingB]

theorem mem_candidateMatchings (edges m : List (String × String)) :
    m ∈ candidateMatchings edges ↔
      m.Sublist edges ∧ m.Pairwise (fun p q => p.1 ≠ q.1 ∧ p.2 ≠ q.2) := by
  simp [candidateMatchings, List.mem_filter, List.mem_sublists, isMatchingB_iff]

theorem pickLongest_mem_candidates (edges : List (String × String)) :
    pickLongest (candidateMatchings edges) ∈ candidateMatchings edges := by
  rcases foldl_pick_mem (candidateMatchings edges) [] with h | h
  · exact h
  · rw [pickLongest, h]
    exact (mem_candidateMatchings edges []).2 ⟨List.nil_sublist edges, List.Pairwise.nil⟩

theorem pickLongest_length (edges : List (String × String)) :
    (pickLongest (candidateMatchings edges)).length = matchingNumber edges :=
  foldl_pick_length (candidateMatchings edges) []

theorem length_le_matchingNumber (edges m : List (String × String))
    (h : m ∈ candidateMatchings edges) : m.length ≤ matchingNumber edges := by
  have := (le_foldl_max ((candidateMatchings edges).map List.length) 0).1
  exact this m.length (List.mem_map_of_mem List.length h)

theorem pickLongest_sublist (edges : List (String × String)) :
    (pickLongest (candidateMatchings edges)).Sublist edges :=
  ((mem_candidateMatchings edges _).1 (pickLongest_mem_candidates edges)).1

theorem pickLongest_pairwise (edges : List (String × String)) :
    (pickLongest (candidateMatchings edges)).Pairwise (fun p q => p.1 ≠ q.1 ∧ p.2 ≠ q.2) :=
  ((mem_candidateMatchings edges _).1 (pickLongest_mem_candidates edges)).2

theorem mem_max_bipartite_pairings (PICs SICs : List String)
    (edges : List (String × String)) (p : String × String)
    (hp : p ∈ max_bipartite_pairings PICs SICs edges) : p ∈ edges := by
  have h1 : p ∈ pickLongest (candidateMatchings edges) :=
    (List.mem_filter.1 hp).1
  exact (pickLongest_sublist edges).subset h1

end Crew

namespace Crew

theorem max_bipartite_pairings_nil (P S : List String) :
    max_bipartite_pairings P S [] = [] := by
  have h : pickLongest (candidateMatchings []) = [] :=
    List.sublist_nil.1 (pickLongest_sublist [])
  simp [max_bipartite_pairings, h]

theorem max_bipartite_pairings_eq_pickLongest (PICs SICs : List String)
    (edges : List (String × String)) (hE : ∀ e ∈ edges, e.1 ∈ PICs ∧ e.2 ∈ SICs) :
    max_bipartite_pairings PICs SICs edges = pickLongest (candidateMatchings edges) := by
  unfold max_bipartite_pairings
  apply List.filter_eq_self.2
  intro p hp
  exact decide_eq_true (hE p ((pickLongest_sublist edges).subset hp)).1

end Crew

/-- C1: for every pair of disjoint PIC and SIC node sets and every edge list of
allowed pairs (edges drawn from PIC x SIC), the pairing list returned by
`max_bipartite_pairings` has size equal to the maximum matching number of the
edge list, is at least as large as every matching contained in the edge list,
consists only of input edges, and no pilot code appears in more than one
returned pairing; in the concrete scenario with PICs `A,B`, SICs `C,D` and all
four cross edges, the matching has size 2 and both PICs are matched. -/
theorem Crew.max_bipartite_pairings_correct :
    (∀ (PICs SICs : List String) (edges : List (String × String)),
      (∀ x ∈ PICs, x ∉ SICs) →
      (∀ e ∈ edges, e.1 ∈ PICs ∧ e.2 ∈ SICs) →
      (Crew.max_bipartite_pairings PICs SICs edges).length = Crew.matchingNumber edges ∧
      (∀ m : List (String × String), m.Sublist edges →
        m.Pairwise (fun p q => p.1 ≠ q.1 ∧ p.2 ≠ q.2) →
        m.length ≤ (Crew.max_bipartite_pairings PICs SICs edges).length) ∧
      (∀ p ∈ Crew.max_bipartite_pairings PICs SICs edges, p ∈ edges) ∧
      (Crew.max_bipartite_pairings PICs SICs edges).Pairwise
        (fun p q => p.1 ≠ q.1 ∧ p.2 ≠ q.2 ∧ p.1 ≠ q.2 ∧ p.2 ≠ q.1)) ∧
    (Crew.max_bipartite_pairings ["A", "B"] ["C", "D"]
      [("A", "C"), ("A", "D"), ("B", "C"), ("B", "D")]).length = 2 ∧
    "A" ∈ (Crew.max_bipartite_pairings ["A", "B"] ["C", "D"]
      [("A", "C"), ("A", "D"), ("B", "C"), ("B", "D")]).map Prod.fst ∧
    "B" ∈ (Crew.max_bipartite_pairings ["A", "B"] ["C", "D"]
      [("A", "C"), ("A", "D"), ("B", "C"), ("B", "D")]).map Prod.fst := by
  refine ⟨?_, by decide, by decide, by decide⟩
  intro PICs SICs edges hdisj hE
  have hfix := Crew.max_bipartite_pairings_eq_pickLongest PICs SICs edges hE
  refine ⟨?_, ?_, ?_, ?_⟩
  · rw [hfix, Crew.pickLongest_length]
  · intro m hm hpw
    rw [hfix, Crew.pickLongest_length]
    exact Crew.length_le_matchingNumber edges m
      ((Crew.mem_candidateMatchings edges m).2 ⟨hm, hpw⟩)
  · exact fun p hp => Crew.mem_max_bipartite_pairings PICs SICs edges p hp
  · rw [hfix]
    refine (Crew.pickLongest_pairwise edges).imp_of_mem ?_
    intro a b ha hb hab
    have haE : a ∈ edges := (Crew.pickLongest_sublist edges).subset ha
    have hbE : b ∈ edges := (Crew.pickLongest_sublist edges).subset hb
    refine ⟨hab.1, hab.2, ?_, ?_⟩
    · intro hEq
      exact hdisj a.1 (hE a haE).1 (hEq ▸ (hE b hbE).2)
    · intro hEq
      exact hdisj b.1 (hE b hbE).1 (hEq ▸ (hE a haE).2)

/-- Witness for C1: the general part applied to the concrete scenario D input,
with both hypotheses discharged by computation. -/
theorem Crew.max_bipartite_pairings_correct_witness :
    (Crew.max_bipartite_pairings ["A", "B"] ["C", "D"]
      [("A", "C"), ("A", "D"), ("B", "C"), ("B", "D")]).length =
      Crew.matchingNumber [("A", "C"), ("A", "D"), ("B", "C"), ("B", "D")] :=
  (Crew.max_bipartite_pairings_correct.1 ["A", "B"] ["C", "D"]
    [("A", "C"), ("A", "D"), ("B", "C"), ("B", "D")] (by decide) (by decide)).1

/-- C2: no pairing produced by the constraint builder composed with the
matcher belongs to the restriction set: the allowed-edge list excludes every
restricted pair, and the matcher only returns edges from that list. -/
theorem Crew.pairings_exclude_restrictions
    (available : List String) (role_map restrictions : List (String × String))
    (p : String × String)
    (hp : p ∈ Crew.max_bipartite_pairings
      (Crew.build_allowed_pairs available role_map restrictions).1
      (Crew.build_allowed_pairs available role_map restrictions).2.1
      (Crew.build_allowed_pairs available role_map restrictions).2.2) :
    p ∉ restrictions := by
  have hallowed : p ∈ (Crew.build_allowed_pairs available role_map restrictions).2.2 :=
    Crew.mem_max_bipartite_pairings _ _ _ p hp
  simp only [Crew.build_allowed_pairs, List.mem_filter, Bool.not_eq_eq_eq_not, Bool.not_true,
    decide_eq_false_iff_not] at hallowed
  exact hallowed.2

/-- Witness for C2: in scenario B the returned pairing `(KVB, YAD)` is not in
the restriction set. -/
theorem Crew.pairings_exclude_restrictions_witness :
    ("KVB", "YAD") ∉ [("KVB", "HEB")] :=
  Crew.pairings_exclude_restrictions ["KVB", "HEB", "YAD"]
    [("KVB", "PIC"), ("HEB", "SIC"), ("YAD", "SIC")] [("KVB", "HEB")]
    ("KVB", "YAD") (by decide)

/-- C7: an empty set of available pilots yields empty PIC and SIC lists and an
empty pairing list, and more generally an empty PIC list or an empty SIC list
makes the pipeline return an empty pairing list (all functions are total, so
no exception is possible). -/
theorem Crew.empty_pilot_lists_empty_pairings :
    (∀ role_map restrictions : List (String × String),
      Crew.build_allowed_pairs [] role_map restrictions = ([], [], []) ∧
      Crew.max_bipartite_pairings [] [] [] = []) ∧
    (∀ (available : List String) (role_map restrictions : List (String × String)),
      (Crew.build_allowed_pairs available role_map restrictions).1 = [] ∨
        (Crew.build_allowed_pairs available role_map restrictions).2.1 = [] →
      Crew.max_bipartite_pairings
        (Crew.build_allowed_pairs available role_map restrictions).1
        (Crew.build_allowed_pairs available role_map restrictions).2.1
        (Crew.build_allowed_pairs available role_map restrictions).2.2 = []) := by
  constructor
  · intro role_map restrictions
    exact ⟨rfl, by decide⟩
  · intro available role_map restrictions h
    have hallow : (Crew.build_allowed_pairs available role_map restrictions).2.2 = [] := by
      rcases h with h1 | h2
      · simp only [Crew.build_allowed_pairs] at h1 ⊢
        rw [h1]
        rfl
      · simp only [Crew.build_allowed_pairs] at h2 ⊢
        simp [h2]
    rw [hallow]
    exact Crew.max_bipartite_pairings_nil _ _

/-- Witness for C7: a concrete run with one SIC and no PIC produces an empty
pairing list. -/
theorem Crew.empty_pilot_lists_empty_pairings_witness :
    Crew.max_bipartite_pairings
      (Crew.build_allowed_pairs ["HEB"] [("HEB", "SIC")] []).1
      (Crew.build_allowed_pairs ["HEB"] [("HEB", "SIC")] []).2.1
      (Crew.build_allowed_pairs ["HEB"] [("HEB", "SIC")] []).2.2 = [] :=
  Crew.empty_pilot_lists_empty_pairings.2 ["HEB"] [("HEB", "SIC")] [] (Or.inl (by decide))

/-- C3 counterexample: the claim states that restriction comparison in
`build_allowed_pairs` is case-insensitive, but the function tests exact tuple
membership: the lower-case restriction `(kvb, heb)` fails to exclude the edge
`(KVB, HEB)` even though the two coincide after upper-casing. -/
theorem Crew.build_allowed_pairs_restriction_case_counterexample :
    ("KVB", "HEB") ∈ (Crew.build_allowed_pairs ["KVB", "HEB"]
      [("KVB", "PIC"), ("HEB", "SIC")] [("kvb", "heb")]).2.2 ∧
    (Crew.upStr "kvb", Crew.upStr "heb") = ("KVB", "HEB") := by decide

/-- C3 (amended): for every duplicate-free list of available pilot codes,
`build_allowed_pairs` partitions the available codes into a PIC list and a SIC
list (a code is in the PIC list exactly when its upper-cased role is `PIC`,
in the SIC list exactly when it is `SIC`, and in neither list otherwise, so a
code absent from the role map gets role `""` and lands in neither), the
allowed edges are exactly the pairs of the PIC x SIC cross product that are
not exact members of the restriction set (restriction comparison is exact,
case-sensitive tuple membership; role comparison is case-insensitive), and the
pilot lists and the edge list have no duplicates; scenario B holds. -/
theorem Crew.build_allowed_pairs_spec :
    (∀ (available : List String) (role_map restrictions : List (String × String)),
      available.Nodup →
      (∀ p, p ∈ (Crew.build_allowed_pairs available role_map restrictions).1 ↔
        p ∈ available ∧ Crew.roleOf role_map p = "PIC") ∧
      (∀ p, p ∈ (Crew.build_allowed_pairs available role_map restrictions).2.1 ↔
        p ∈ available ∧ Crew.roleOf role_map p = "SIC") ∧
      (∀ p ∈ (Crew.build_allowed_pairs available role_map restrictions).1,
        p ∉ (Crew.build_allowed_pairs available role_map restrictions).2.1) ∧
      (∀ pr : String × String,
        pr ∈ (Crew.build_allowed_pairs available role_map restrictions).2.2 ↔
        pr.1 ∈ (Crew.build_allowed_pairs available role_map restrictions).1 ∧
        pr.2 ∈ (Crew.build_allowed_pairs available role_map restrictions).2.1 ∧
        pr ∉ restrictions) ∧
      (Crew.build_allowed_pairs available role_map restrictions).1.Nodup ∧
      (Crew.build_allowed_pairs available role_map restrictions).2.1.Nodup ∧
      (Crew.build_allowed_pairs available role_map restrictions).2.2.Nodup) ∧
    Crew.roleOf [("KVB", "pic")] "KVB" = "PIC" ∧
    Crew.build_allowed_pairs ["KVB", "HEB", "YAD"]
      [("KVB", "PIC"), ("HEB", "SIC"), ("YAD", "SIC")] [("KVB", "HEB")] =
      (["KVB"], ["HEB", "YAD"], [("KVB", "YAD")]) ∧
    Crew.max_bipartite_pairings ["KVB"] ["HEB", "YAD"] [("KVB", "YAD")] =
      [("KVB", "YAD")] := by
  refine ⟨?_, by decide, by decide, by decide⟩
  intro available role_map restrictions hnd
  have hPmem : ∀ p, p ∈ (Crew.build_allowed_pairs available role_map restrictions).1 ↔
      p ∈ available ∧ Crew.roleOf role_map p = "PIC" := by
    intro p
    simp [Crew.build_allowed_pairs, List.mem_filter]
  have hSmem : ∀ p, p ∈ (Crew.build_allowed_pairs available role_map restrictions).2.1 ↔
      p ∈ available ∧ Crew.roleOf role_map p = "SIC" := by
    intro p
    simp [Crew.build_allowed_pairs, List.mem_filter]
  refine ⟨hPmem, hSmem, ?_, ?_, ?_, ?_, ?_⟩
  · intro p hp hs
    have h1 := (hPmem p).1 hp
    have h2 := (hSmem p).1 hs
    have : ("PIC" : String) = "SIC" := h1.2 ▸ h2.2
    exact absurd this (by decide)
  · intro pr
    constructor
    · intro h
      rcases List.mem_filter.1 h with ⟨hin, hnr⟩
      rcases List.mem_flatMap.1 hin with ⟨pic, hpic, hmem⟩
      rcases List.mem_map.1 hmem with ⟨sic, hsic, heq⟩
      have h1 : pr.1 = pic := by rw [← heq]
      have h2 : pr.2 = sic := by rw [← heq]
      refine ⟨h1 ▸ hpic, h2 ▸ hsic, ?_⟩
      simpa [decide_eq_false_iff_not] using hnr
    · rintro ⟨h1, h2, h3⟩
      refine List.mem_filter.2 ⟨List.mem_flatMap.2 ⟨pr.1, h1, List.mem_map.2 ⟨pr.2, h2, ?_⟩⟩, ?_⟩
      · rfl
      · simp [h3]
  · exact hnd.filter _
  · exact hnd.filter _
  · apply List.Nodup.filter
    apply List.nodup_flatMap.2
    constructor
    · intro pic hpic
      refine (hnd.filter _).map ?_
      intro a b hab
      exact congrArg Prod.snd hab
    · refine (hnd.filter _).imp ?_
      intro a b hab
      intro x hxa hxb
      rcases List.mem_map.1 hxa with ⟨s1, hs1, he1⟩
      rcases List.mem_map.1 hxb with ⟨s2, hs2, he2⟩
      apply hab
      have e1 : x.1 = a := by rw [← he1]
      have e2 : x.1 = b := by rw [← he2]
      rw [← e1, e2]

/-- Witness for C3's amended theorem: the general part applied to the concrete
scenario B input, the duplicate-freeness hypothesis discharged by computation. -/
theorem Crew.build_allowed_pairs_spec_witness :
    (Crew.build_allowed_pairs ["KVB", "HEB", "YAD"]
      [("KVB", "PIC"), ("HEB", "SIC"), ("YAD", "SIC")] [("KVB", "HEB")]).2.2.Nodup :=
  ((Crew.build_allowed_pairs_spec.1 ["KVB", "HEB", "YAD"]
    [("KVB", "PIC"), ("HEB", "SIC"), ("YAD", "SIC")] [("KVB", "HEB")]
    (by decide)).2.2.2.2.2.2)

namespace Crew

/-! Helper lemmas about clustering. -/

theorem pyRound_bounds (x : ℚ) : |x - (pyRound x : ℚ)| ≤ 1/2 := by
  have h1 : (⌊x⌋ : ℚ) ≤ x := Int.floor_le x
  have h2 : x < ⌊x⌋ + 1 := Int.lt_floor_add_one x
  simp only [pyRound]
  split_ifs with ha hb hc
  · rw [abs_le]; constructor <;> linarith
  · rw [abs_le]; push_cast; constructor <;> linarith
  · rw [abs_le]; constructor <;> linarith
  · rw [abs_le]; push_cast; constructor <;> linarith

theorem leX0_total : ∀ a b : Word, leX0 a b ∨ leX0 b a := by
  intro a b
  rcases le_total a.x0 b.x0 with h | h
  · exact Or.inl (decide_eq_true h)
  · exact Or.inr (decide_eq_true h)

theorem leX0_trans : ∀ a b c : Word, leX0 a b → leX0 b c → leX0 a c := by
  intro a b c hab hbc
  exact decide_eq_true (le_trans (of_decide_eq_true hab) (of_decide_eq_true hbc))

theorem leKey_total : ∀ a b : ℤ, leKey a b ∨ leKey b a := by
  intro a b
  rcases le_total a b with h | h
  · exact Or.inl (decide_eq_true h)
  · exact Or.inr (decide_eq_true h)

theorem leKey_trans : ∀ a b c : ℤ, leKey a b → leKey b c → leKey a c := by
  intro a b c hab hbc
  exact decide_eq_true (le_trans (of_decide_eq_true hab) (of_decide_eq_true hbc))

theorem mem_bucket (words : List Word) (tol : ℚ) (k : ℤ) (w : Word)
    (hw : w ∈ sortBy leX0 (words.filter (fun v => bucketKey tol v == k))) :
    w ∈ words ∧ bucketKey tol w = k := by
  have hmem := (sortBy_perm leX0 (words.filter (fun v => bucketKey tol v == k))).mem_iff.1 hw
  rcases List.mem_filter.1 hmem with ⟨h1, h2⟩
  exact ⟨h1, by simpa using h2⟩

theorem cluster_rows_same_key (words : List Word) (tol : ℚ) (row : List Word)
    (hrow : row ∈ cluster_rows words tol) :
    ∃ k : ℤ, ∀ w ∈ row, w ∈ words ∧ bucketKey tol w = k := by
  rcases List.mem_map.1 hrow with ⟨k, _, hEq⟩
  exact ⟨k, fun w hw => mem_bucket words tol k w (hEq ▸ hw)⟩

end Crew

/-- C8: `cluster_rows` maps the empty input to the empty output; every row of
its output is sorted left-to-right by `x0`; all tokens of one row share the
same tolerance bucket (equal `round(center / tol)` key); distinct rows are
ordered top-to-bottom (every token of an earlier row has a strictly smaller
bucket key than every token of a later row); and the rows partition the input
tokens. -/
theorem Crew.cluster_rows_spec :
    (∀ tol : ℚ, Crew.cluster_rows [] tol = []) ∧
    (∀ (words : List Word) (tol : ℚ),
      (∀ row ∈ Crew.cluster_rows words tol, row.Pairwise (fun a b => a.x0 ≤ b.x0)) ∧
      (∀ row ∈ Crew.cluster_rows words tol, ∀ w1 ∈ row, ∀ w2 ∈ row,
        Crew.bucketKey tol w1 = Crew.bucketKey tol w2) ∧
      (Crew.cluster_rows words tol).Pairwise
        (fun r s => ∀ w1 ∈ r, ∀ w2 ∈ s, Crew.bucketKey tol w1 < Crew.bucketKey tol w2) ∧
      (∀ w ∈ words, ∃ row ∈ Crew.cluster_rows words tol, w ∈ row) ∧
      (∀ row ∈ Crew.cluster_rows words tol, ∀ w ∈ row, w ∈ words)) := by
  constructor
  · intro tol; rfl
  · intro words tol
    refine ⟨?_, ?_, ?_, ?_, ?_⟩
    · intro row hrow
      rcases List.mem_map.1 hrow with ⟨k, _, hEq⟩
      have hs := Crew.sortBy_pairwise Crew.leX0 Crew.leX0_total Crew.leX0_trans
        (words.filter (fun v => Crew.bucketKey tol v == k))
      rw [← hEq]
      exact hs.imp (fun h => of_decide_eq_true h)
    · intro row hrow w1 h1 w2 h2
      rcases Crew.cluster_rows_same_key words tol row hrow with ⟨k, hk⟩
      rw [(hk w1 h1).2, (hk w2 h2).2]
    · have hkeys : ((words.map (Crew.bucketKey tol)).dedup).Nodup := List.nodup_dedup _
      have hsortnd : (Crew.sortBy Crew.leKey ((words.map (Crew.bucketKey tol)).dedup)).Nodup :=
        (Crew.sortBy_perm Crew.leKey _).nodup_iff.2 hkeys
      have hsorted := Crew.sortBy_pairwise Crew.leKey Crew.leKey_total Crew.leKey_trans
        ((words.map (Crew.bucketKey tol)).dedup)
      have hlt : (Crew.sortBy Crew.leKey ((words.map (Crew.bucketKey tol)).dedup)).Pairwise
          (fun a b : ℤ => a < b) := by
        refine (hsorted.and hsortnd).imp ?_
        intro a b hab
        exact lt_of_le_of_ne (of_decide_eq_true hab.1) hab.2
      refine List.pairwise_map.2 (hlt.imp ?_)
      intro k1 k2 hk12 w1 hw1 w2 hw2
      rw [(Crew.mem_bucket words tol k1 w1 hw1).2, (Crew.mem_bucket words tol k2 w2 hw2).2]
      exact hk12
    · intro w hw
      refine ⟨Crew.sortBy Crew.leX0
        (words.filter (fun v => Crew.bucketKey tol v == Crew.bucketKey tol w)), ?_, ?_⟩
      · apply List.mem_map_of_mem
        exact (Crew.sortBy_perm Crew.leKey _).mem_iff.2
          (List.mem_dedup.2 (List.mem_map_of_mem (Crew.bucketKey tol) hw))
      · exact (Crew.sortBy_perm Crew.leX0 _).mem_iff.2
          (List.mem_filter.2 ⟨hw, by simp⟩)
    · intro row hrow w hw
      rcases Crew.cluster_rows_same_key words tol row hrow with ⟨k, hk⟩
      exact (hk w hw).1


namespace Crew

theorem tokA_bucket4 : bucketKey 4 tokA = 1 := by
  norm_num [bucketKey, pyRound, yCenter, tokA]

theorem tokB_bucket4 : bucketKey 4 tokB = 1 := by
  norm_num [bucketKey, pyRound, yCenter, tokB]

theorem tokA_bucket6 : bucketKey 6 tokA = 0 := by
  norm_num [bucketKey, pyRound, yCenter, tokA]

theorem tokB_bucket6 : bucketKey 6 tokB = 1 := by
  norm_num [bucketKey, pyRound, yCenter, tokB]

theorem tokA_x0 : tokA.x0 = 0 := rfl

theorem tokB_x0 : tokB.x0 = 1 := rfl

theorem tok_cluster4 : cluster_rows [tokA, tokB] 4 = [[tokA, tokB]] := by
  norm_num [cluster_rows, tokA_bucket4, tokB_bucket4, sortBy, insertSorted, leKey, leX0,
    tokA_x0, tokB_x0, List.dedup_cons_of_mem, List.dedup_cons_of_not_mem]

theorem tok_cluster6 : cluster_rows [tokA, tokB] 6 = [[tokA], [tokB]] := by
  norm_num [cluster_rows, tokA_bucket6, tokB_bucket6, sortBy, insertSorted, leKey, leX0,
    tokA_x0, tokB_x0, List.dedup_cons_of_mem, List.dedup_cons_of_not_mem]

end Crew

/-- Witness for C8: the sortedness and same-bucket parts applied to the
concrete two-token input, the row-membership hypotheses discharged by
computation. -/
theorem Crew.cluster_rows_spec_witness :
    List.Pairwise (fun a b : Crew.Word => a.x0 ≤ b.x0) [Crew.tokA, Crew.tokB] ∧
    Crew.bucketKey 4 Crew.tokA = Crew.bucketKey 4 Crew.tokB := by
  have hmem : [Crew.tokA, Crew.tokB] ∈ Crew.cluster_rows [Crew.tokA, Crew.tokB] 4 := by
    rw [Crew.tok_cluster4]
    exact List.mem_cons_self _ _
  constructor
  · exact (Crew.cluster_rows_spec.2 [Crew.tokA, Crew.tokB] 4).1 _ hmem
  · exact (Crew.cluster_rows_spec.2 [Crew.tokA, Crew.tokB] 4).2.1 _ hmem
      Crew.tokA (List.mem_cons_self _ _) Crew.tokB (by simp)

/-- C6 counterexample: row clustering is not tolerance-monotonic.  The two
tokens with vertical centers 2.5 and 3.5 are placed in the same row at
tolerance 4 (both bucket keys round to 1) but in different rows at the larger
tolerance 6 (keys 0 and 1), so increasing the tolerance splits an existing
cluster. -/
theorem Crew.cluster_rows_monotonic_counterexample :
    Crew.cluster_rows [Crew.tokA, Crew.tokB] 4 = [[Crew.tokA, Crew.tokB]] ∧
    Crew.cluster_rows [Crew.tokA, Crew.tokB] 6 = [[Crew.tokA], [Crew.tokB]] ∧
    (4 : ℚ) < 6 :=
  ⟨Crew.tok_cluster4, Crew.tok_cluster6, by norm_num⟩

/-- C6 (amended): tolerance-monotonicity fails (increasing the tolerance can
split an existing cluster, see the counterexample); what does hold for a fixed
token set is the bucket-width bound: any two tokens placed in the same row by
`cluster_rows` at a positive tolerance `t` have vertical centers at most `t`
apart. -/
theorem Crew.cluster_rows_tolerance_bound (words : List Crew.Word) (tol : ℚ)
    (htol : 0 < tol) (row : List Crew.Word) (hrow : row ∈ Crew.cluster_rows words tol)
    (w1 : Crew.Word) (h1 : w1 ∈ row) (w2 : Crew.Word) (h2 : w2 ∈ row) :
    |Crew.yCenter w1 - Crew.yCenter w2| ≤ tol := by
  rcases Crew.cluster_rows_same_key words tol row hrow with ⟨k, hk⟩
  have e1 : Crew.pyRound (Crew.yCenter w1 / tol) = k := (hk w1 h1).2
  have e2 : Crew.pyRound (Crew.yCenter w2 / tol) = k := (hk w2 h2).2
  have b1 : |Crew.yCenter w1 / tol - (k : ℚ)| ≤ 1/2 := by
    have := Crew.pyRound_bounds (Crew.yCenter w1 / tol)
    rwa [e1] at this
  have b2 : |Crew.yCenter w2 / tol - (k : ℚ)| ≤ 1/2 := by
    have := Crew.pyRound_bounds (Crew.yCenter w2 / tol)
    rwa [e2] at this
  have b3 : |Crew.yCenter w1 / tol - Crew.yCenter w2 / tol| ≤ 1 := by
    have habs := abs_sub_le (Crew.yCenter w1 / tol) ((k : ℚ)) (Crew.yCenter w2 / tol)
    have b2' : |(k : ℚ) - Crew.yCenter w2 / tol| ≤ 1/2 := by rwa [abs_sub_comm] at b2
    linarith
  have hne : tol ≠ 0 := ne_of_gt htol
  have heq : Crew.yCenter w1 - Crew.yCenter w2 =
      (Crew.yCenter w1 / tol - Crew.yCenter w2 / tol) * tol := by
    field_simp
  rw [heq, abs_mul, abs_of_pos htol]
  calc |Crew.yCenter w1 / tol - Crew.yCenter w2 / tol| * tol ≤ 1 * tol :=
        mul_le_mul_of_nonneg_right b3 (le_of_lt htol)
    _ = tol := one_mul tol

/-- Witness for C6's amended theorem: applied to the two concrete tokens in
the tolerance-4 row, all hypotheses discharged by computation. -/
theorem Crew.cluster_rows_tolerance_bound_witness :
    |Crew.yCenter Crew.tokA - Crew.yCenter Crew.tokB| ≤ 4 :=
  Crew.cluster_rows_tolerance_bound [Crew.tokA, Crew.tokB] 4 (by norm_num)
    [Crew.tokA, Crew.tokB]
    (by rw [Crew.tok_cluster4]; exact List.mem_cons_self _ _)
    Crew.tokA (List.mem_cons_self _ _) Crew.tokB (by simp)

namespace Crew

/-! Helper lemmas about the running-minimum fold. -/

theorem foldl_min_spec (f : α → ℚ) (xs : List α) (x : α) :
    (xs.foldl (fun best c => if f c < f best then c else best) x ∈ x :: xs) ∧
    f (xs.foldl (fun best c => if f c < f best then c else best) x) ≤ f x ∧
    ∀ a ∈ xs, f (xs.foldl (fun best c => if f c < f best then c else best) x) ≤ f a := by
  induction xs generalizing x with
  | nil => exact ⟨List.mem_cons_self _ _, le_refl _, by simp⟩
  | cons c cs ih =>
    simp only [List.foldl_cons]
    rcases ih (if f c < f x then c else x) with ⟨hmem, hle, hall⟩
    have hx1 : f (if f c < f x then c else x) ≤ f x ∧ f (if f c < f x then c else x) ≤ f c := by
      by_cases h : f c < f x
      · rw [if_pos h]; exact ⟨le_of_lt h, le_refl _⟩
      · rw [if_neg h]; exact ⟨le_refl _, le_of_not_lt h⟩
    refine ⟨?_, le_trans hle hx1.1, ?_⟩
    · rcases List.mem_cons.1 hmem with h | h
      · rw [h]
        by_cases hc : f c < f x
        · rw [if_pos hc]
          exact List.mem_cons_of_mem _ (List.mem_cons_self _ _)
        · rw [if_neg hc]
          exact List.mem_cons_self _ _
      · exact List.mem_cons_of_mem _ (List.mem_cons_of_mem _ h)
    · intro a ha
      rcases List.mem_cons.1 ha with rfl | ha'
      · exact le_trans hle hx1.2
      · exact hall a ha'

theorem pyMinBy_spec (f : α → ℚ) (l : List α) (hl : l ≠ []) :
    ∃ m, pyMinBy f l = some m ∧ m ∈ l ∧ ∀ a ∈ l, f m ≤ f a := by
  cases l with
  | nil => exact absurd rfl hl
  | cons x xs =>
    rcases foldl_min_spec f xs x with ⟨hmem, hle, hall⟩
    refine ⟨_, rfl, hmem, ?_⟩
    intro a ha
    rcases List.mem_cons.1 ha with rfl | ha'
    · exact hle
    · exact hall a ha'

theorem nearest_day_mem (cols : List (String × ℚ)) (x : ℚ) (d : String)
    (h : nearest_day cols x = some d) : d ∈ cols.map Prod.fst := by
  cases cols with
  | nil => exact absurd h (by simp [nearest_day, pyMinBy])
  | cons c cs =>
    rcases pyMinBy_spec (fun p => |p.2 - x|) (c :: cs) (List.cons_ne_nil c cs)
      with ⟨m, hm, hmem, _⟩
    have hd : d = m.1 := by
      rw [nearest_day, hm] at h
      simpa using h.symm
    exact hd ▸ List.mem_map_of_mem Prod.fst hmem

end Crew

/-- C5: for every nonempty day-column map, `nearest_day` returns a day of the
map achieving the minimum absolute horizontal distance between its column
center and the token's horizontal center; for the map
`1 -> 10, 2 -> 50, 3 -> 90` and a marker centered at `x = 48` the assigned day
is `2`. -/
theorem Crew.nearest_day_spec :
    (∀ (cols : List (String × ℚ)) (x : ℚ), cols ≠ [] →
      ∃ d c, Crew.nearest_day cols x = some d ∧ (d, c) ∈ cols ∧
        ∀ p ∈ cols, |c - x| ≤ |p.2 - x|) ∧
    Crew.nearest_day [("1", 10), ("2", 50), ("3", 90)] 48 = some "2" := by
  constructor
  · intro cols x hne
    rcases Crew.pyMinBy_spec (fun p => |p.2 - x|) cols hne with ⟨m, hm, hmem, hall⟩
    refine ⟨m.1, m.2, by simp [Crew.nearest_day, hm], by simpa using hmem, hall⟩
  · norm_num [Crew.nearest_day, Crew.pyMinBy]

/-- Witness for C5: the general part applied to the scenario A map and marker
position, the nonemptiness hypothesis discharged explicitly. -/
theorem Crew.nearest_day_spec_witness :
    ∃ d c, Crew.nearest_day [("1", 10), ("2", 50), ("3", 90)] 48 = some d ∧
      (d, c) ∈ [("1", (10 : ℚ)), ("2", 50), ("3", 90)] ∧
      ∀ p ∈ [("1", (10 : ℚ)), ("2", 50), ("3", 90)], |c - 48| ≤ |p.2 - 48| :=
  Crew.nearest_day_spec.1 [("1", 10), ("2", 50), ("3", 90)] 48 (List.cons_ne_nil _ _)

namespace Crew

/-! Helper lemmas about the nearest-pilot-above search. -/

theorem nearestPilotAboveAux_none (ry : ℚ) (prs : List PilotRow) :
    ∀ acc : Option (PilotRow × ℚ),
      nearestPilotAboveAux ry acc prs = none ↔
        acc = none ∧ ∀ pr ∈ prs, ¬ pr.y_position < ry := by
  induction prs with
  | nil => intro acc; simp [nearestPilotAboveAux]
  | cons pr rest ih =>
    intro acc
    by_cases h : pr.y_position < ry
    · cases acc with
      | none =>
        simp only [nearestPilotAboveAux, if_pos h]
        rw [ih]
        simp [h]
      | some best =>
        rcases best with ⟨b, d⟩
        by_cases h2 : ry - pr.y_position < d
        · simp only [nearestPilotAboveAux, if_pos h, if_pos h2]
          rw [ih]
          simp [h]
        · simp only [nearestPilotAboveAux, if_pos h, if_neg h2]
          rw [ih]
          simp [h]
    · simp only [nearestPilotAboveAux, if_neg h]
      rw [ih]
      constructor
      · rintro ⟨h1, h2⟩
        refine ⟨h1, ?_⟩
        intro q hq
        rcases List.mem_cons.1 hq with rfl | hq'
        · exact h
        · exact h2 q hq'
      · rintro ⟨h1, h2⟩
        exact ⟨h1, fun q hq => h2 q (List.mem_cons_of_mem _ hq)⟩

theorem nearestPilotAboveAux_some (ry : ℚ) (prs : List PilotRow) :
    ∀ (acc : Option (PilotRow × ℚ)) (pr : PilotRow) (d : ℚ),
      nearestPilotAboveAux ry acc prs = some (pr, d) →
      (acc = some (pr, d) ∨ (pr ∈ prs ∧ pr.y_position < ry ∧ d = ry - pr.y_position)) ∧
      (∀ q ∈ prs, q.y_position < ry → d ≤ ry - q.y_position) ∧
      (∀ b e, acc = some (b, e) → d ≤ e) := by
  induction prs with
  | nil =>
    intro acc pr d h
    simp only [nearestPilotAboveAux] at h
    refine ⟨Or.inl h, by simp, ?_⟩
    intro b e hbe
    rw [h] at hbe
    have : d = e := congrArg Prod.snd (Option.some.inj hbe)
    exact le_of_eq this
  | cons q rest ih =>
    intro acc pr d h
    by_cases hq : q.y_position < ry
    · cases acc with
      | none =>
        simp only [nearestPilotAboveAux, if_pos hq] at h
        rcases ih (some (q, ry - q.y_position)) pr d h with ⟨h1, h2, h3⟩
        have hdq : d ≤ ry - q.y_position := h3 q (ry - q.y_position) rfl
        refine ⟨?_, ?_, ?_⟩
        · rcases h1 with hacc | ⟨hmem, hy, hd⟩
          · have e1 : pr = q := congrArg Prod.fst (Option.some.inj hacc.symm)
            have e2 : d = ry - q.y_position := congrArg Prod.snd (Option.some.inj hacc.symm)
            exact Or.inr ⟨e1 ▸ List.mem_cons_self _ _, by rw [e1]; exact hq, by rw [e1, e2]⟩
          · exact Or.inr ⟨List.mem_cons_of_mem _ hmem, hy, hd⟩
        · intro r hr hry
          rcases List.mem_cons.1 hr with rfl | hr'
          · exact hdq
          · exact h2 r hr' hry
        · intro b e hbe
          exact absurd hbe (by simp)
      | some best =>
        rcases best with ⟨b0, d0⟩
        by_cases h2 : ry - q.y_position < d0
        · simp only [nearestPilotAboveAux, if_pos hq, if_pos h2] at h
          rcases ih (some (q, ry - q.y_position)) pr d h with ⟨g1, g2, g3⟩
          have hdq : d ≤ ry - q.y_position := g3 q (ry - q.y_position) rfl
          refine ⟨?_, ?_, ?_⟩
          · rcases g1 with hacc | ⟨hmem, hy, hd⟩
            · have e1 : pr = q := congrArg Prod.fst (Option.some.inj hacc.symm)
              have e2 : d = ry - q.y_position := congrArg Prod.snd (Option.some.inj hacc.symm)
              exact Or.inr ⟨e1 ▸ List.mem_cons_self _ _, by rw [e1]; exact hq, by rw [e1, e2]⟩
            · exact Or.inr ⟨List.mem_cons_of_mem _ hmem, hy, hd⟩
          · intro r hr hry
            rcases List.mem_cons.1 hr with rfl | hr'
            · exact hdq
            · exact g2 r hr' hry
          · intro b e hbe
            have he : e = d0 := (congrArg Prod.snd (Option.some.inj hbe)).symm
            exact he ▸ le_trans hdq (le_of_lt h2)
        · simp only [nearestPilotAboveAux, if_pos hq, if_neg h2] at h
          rcases ih (some (b0, d0)) pr d h with ⟨g1, g2, g3⟩
          have hdd0 : d ≤ d0 := g3 b0 d0 rfl
          refine ⟨?_, ?_, ?_⟩
          · rcases g1 with hacc | ⟨hmem, hy, hd⟩
            · exact Or.inl hacc
            · exact Or.inr ⟨List.mem_cons_of_mem _ hmem, hy, hd⟩
          · intro r hr hry
            rcases List.mem_cons.1 hr with rfl | hr'
            · exact le_trans hdd0 (le_of_not_lt h2)
            · exact g2 r hr' hry
          · intro b e hbe
            have he : e = d0 := (congrArg Prod.snd (Option.some.inj hbe)).symm
            exact he ▸ hdd0
    · simp only [nearestPilotAboveAux, if_neg hq] at h
      rcases ih acc pr d h with ⟨g1, g2, g3⟩
      refine ⟨?_, ?_, g3⟩
      · rcases g1 with hacc | ⟨hmem, hy, hd⟩
        · exact Or.inl hacc
        · exact Or.inr ⟨List.mem_cons_of_mem _ hmem, hy, hd⟩
      · intro r hr hry
        rcases List.mem_cons.1 hr with rfl | hr'
        · exact absurd hry hq
        · exact g2 r hr' hry

end Crew

/-- C4: a marker row (availability markers, no pilot code of its own) is
attributed to the pilot row with the closest vertical position strictly above
it: when the search returns a row it is a pilot row strictly above the marker
row at minimal distance, and every availability entry the row emits credits
that row's pilot codes; when no pilot row lies strictly above, the search
returns nothing; and the row's markers are dropped (the row contributes no
availability entries) when the search returns nothing or the distance to the
chosen row exceeds the 10.0-unit threshold. -/
theorem Crew.nearest_pilot_above_spec :
    (∀ (prs : List Crew.PilotRow) (ry : ℚ),
      Crew.nearestPilotAbove prs ry = none ↔ ∀ pr ∈ prs, ¬ pr.y_position < ry) ∧
    (∀ (prs : List Crew.PilotRow) (ry : ℚ) (pr : Crew.PilotRow) (d : ℚ),
      Crew.nearestPilotAbove prs ry = some (pr, d) →
      pr ∈ prs ∧ pr.y_position < ry ∧ d = ry - pr.y_position ∧
        ∀ q ∈ prs, q.y_position < ry → d ≤ ry - q.y_position) ∧
    (∀ (code : String) (prs : List Crew.PilotRow) (cols : List (String × ℚ))
      (i : Nat) (row : List Crew.Word),
      Crew.nearestPilotAbove prs (Crew.rowY row) = none →
      Crew.processRow code prs cols i row = []) ∧
    (∀ (code : String) (prs : List Crew.PilotRow) (cols : List (String × ℚ))
      (i : Nat) (row : List Crew.Word) (pr : Crew.PilotRow) (d : ℚ),
      Crew.nearestPilotAbove prs (Crew.rowY row) = some (pr, d) → 10 < d →
      Crew.processRow code prs cols i row = []) ∧
    (∀ (code : String) (prs : List Crew.PilotRow) (cols : List (String × ℚ))
      (i : Nat) (row : List Crew.Word) (pr : Crew.PilotRow) (d : ℚ),
      Crew.nearestPilotAbove prs (Crew.rowY row) = some (pr, d) →
      ∀ e ∈ Crew.processRow code prs cols i row, e.2 ∈ pr.pilot_codes) := by
  refine ⟨?_, ?_, ?_, ?_, ?_⟩
  · intro prs ry
    rw [Crew.nearestPilotAbove, Crew.nearestPilotAboveAux_none]
    simp
  · intro prs ry pr d h
    rcases Crew.nearestPilotAboveAux_some ry prs none pr d h with ⟨h1, h2, _⟩
    rcases h1 with hacc | ⟨hmem, hy, hd⟩
    · exact absurd hacc (by simp)
    · exact ⟨hmem, hy, hd, h2⟩
  · intro code prs cols i row h
    simp only [Crew.processRow, h]
    split_ifs <;> rfl
  · intro code prs cols i row pr d h h10
    simp only [Crew.processRow, h]
    rw [if_pos h10]
    split_ifs <;> rfl
  · intro code prs cols i row pr d h e he
    simp only [Crew.processRow, h] at he
    split_ifs at he with hA hB hC
    · exact absurd he (List.not_mem_nil e)
    · exact absurd he (List.not_mem_nil e)
    · exact absurd he (List.not_mem_nil e)
    · rcases List.mem_flatMap.1 he with ⟨w, _, hw⟩
      cases hnd : Crew.nearest_day cols (Crew.xCenter w) with
      | none => rw [hnd] at hw; exact absurd hw (List.not_mem_nil e)
      | some day =>
        rw [hnd] at hw
        rcases List.mem_map.1 hw with ⟨c, hc, hce⟩
        have : e.2 = c := by rw [← hce]
        exact this ▸ hc

/-- Witness for C4: with no pilot rows at all the search returns nothing (both
directions of the iff at a concrete input) and a concrete marker row is
dropped. -/
theorem Crew.nearest_pilot_above_spec_witness :
    Crew.processRow "A" [] [] 0 [] = [] :=
  Crew.nearest_pilot_above_spec.2.2.1 "A" [] [] 0 [] rfl

namespace Crew

theorem pilotRowsOfAux_mem_of_codes (valid : Option (List String)) :
    ∀ (rows : List (List Word)) (start i : Nat) (hi : i < rows.length),
      pilotCodesOfRow valid (rows.get ⟨i, hi⟩) ≠ [] →
      ∃ pr ∈ pilotRowsOfAux valid start rows, pr.row_index = start + i := by
  intro rows
  induction rows with
  | nil =>
    intro start i hi
    exact absurd hi (by simp)
  | cons row rest ih =>
    intro start i hi hcodes
    cases i with
    | zero =>
      have hget : (row :: rest).get ⟨0, hi⟩ = row := rfl
      rw [hget] at hcodes
      have hne : (pilotCodesOfRow valid row).isEmpty = false := by
        cases hc : pilotCodesOfRow valid row with
        | nil => exact absurd hc hcodes
        | cons a as => rfl
      refine ⟨PilotRow.mk start (pilotCodesOfRow valid row) (rowY row), ?_, by simp⟩
      simp only [pilotRowsOfAux, hne]
      exact List.mem_cons_self _ _
    | succ j =>
      have hj : j < rest.length := by simpa using hi
      have hget : (row :: rest).get ⟨j + 1, hi⟩ = rest.get ⟨j, hj⟩ := rfl
      rw [hget] at hcodes
      rcases ih (start + 1) j hj hcodes with ⟨pr, hmem, hidx⟩
      refine ⟨pr, ?_, by omega⟩
      cases hc : (pilotCodesOfRow valid row).isEmpty <;>
        simp only [pilotRowsOfAux, hc] <;>
        first
          | exact hmem
          | exact List.mem_cons_of_mem _ hmem

end Crew

/-- C9: a row in which a pilot code is recognized contributes no availability
entries: the second pass of the extraction skips every row whose index appears
among the pilot rows, so a marker on the same row as a pilot code is never
credited to any pilot. -/
theorem Crew.pilot_rows_contribute_nothing (code : String) (valid : Option (List String))
    (rows : List (List Crew.Word)) (cols : List (String × ℚ)) (i : Nat)
    (hi : i < rows.length)
    (hcodes : Crew.pilotCodesOfRow valid (rows.get ⟨i, hi⟩) ≠ []) :
    Crew.processRow code (Crew.pilotRowsOf valid rows) cols i (rows.get ⟨i, hi⟩) = [] := by
  rcases Crew.pilotRowsOfAux_mem_of_codes valid rows 0 i hi hcodes with ⟨pr, hmem, hidx⟩
  have hidx' : pr.row_index = i := by omega
  have hany : (Crew.pilotRowsOf valid rows).any (fun pr => pr.row_index == i) = true :=
    List.any_eq_true.2 ⟨pr, hmem, by simp [hidx']⟩
  simp [Crew.processRow, hany]

/-- Witness for C9: a concrete row containing the pilot code `(AB)` and an
availability marker `A` contributes nothing, its pilot-code hypothesis
discharged by computation. -/
theorem Crew.pilot_rows_contribute_nothing_witness :
    Crew.processRow "A" (Crew.pilotRowsOf none
      [[{ text := "(AB)", x0 := 0, x1 := 1, top := 0, bottom := 1 },
        { text := "A", x0 := 2, x1 := 3, top := 0, bottom := 1 }]]) [("1", 5)] 0
      ([[{ text := "(AB)", x0 := 0, x1 := 1, top := 0, bottom := 1 },
        { text := "A", x0 := 2, x1 := 3, top := 0, bottom := 1 }]].get
          ⟨0, by simp⟩) = [] :=
  Crew.pilot_rows_contribute_nothing "A" none
    [[{ text := "(AB)", x0 := 0, x1 := 1, top := 0, bottom := 1 },
      { text := "A", x0 := 2, x1 := 3, top := 0, bottom := 1 }]] [("1", 5)] 0
    (by simp) (by decide)

namespace Crew

theorem processRow_day_mem (code : String) (prs : List PilotRow)
    (cols : List (String × ℚ)) (i : Nat) (row : List Word) :
    ∀ e ∈ processRow code prs cols i row, e.1 ∈ cols.map Prod.fst := by
  intro e he
  cases hnp : nearestPilotAbove prs (rowY row) with
  | none =>
    simp only [processRow, hnp] at he
    split_ifs at he <;> exact absurd he (List.not_mem_nil e)
  | some best =>
    rcases best with ⟨pr, d⟩
    simp only [processRow, hnp] at he
    split_ifs at he with hA hB hC
    · exact absurd he (List.not_mem_nil e)
    · exact absurd he (List.not_mem_nil e)
    · exact absurd he (List.not_mem_nil e)
    · rcases List.mem_flatMap.1 he with ⟨w, _, hw⟩
      cases hnd : nearest_day cols (xCenter w) with
      | none => rw [hnd] at hw; exact absurd hw (List.not_mem_nil e)
      | some day =>
        rw [hnd] at hw
        rcases List.mem_map.1 hw with ⟨c, _, hce⟩
        have he1 : e.1 = day := by rw [← hce]
        exact he1 ▸ nearest_day_mem cols (xCenter w) day hnd

theorem secondPassAux_day_mem (code : String) (prs : List PilotRow)
    (cols : List (String × ℚ)) :
    ∀ (rows : List (List Word)) (n : Nat) (e : String × String),
      e ∈ secondPassAux code prs cols n rows → e.1 ∈ cols.map Prod.fst := by
  intro rows
  induction rows with
  | nil =>
    intro n e he
    exact absurd he (List.not_mem_nil e)
  | cons row rest ih =>
    intro n e he
    rcases List.mem_append.1 he with h | h
    · exact processRow_day_mem code prs cols n row e h
    · exact ih (n + 1) e h

theorem processPage_day_mem (code : String) (valid : Option (List String))
    (words : List Word) (e : String × String)
    (he : e ∈ (processPage code valid words).2) :
    e.1 ∈ (processPage code valid words).1 := by
  by_cases h1 : words.isEmpty
  · simp only [processPage, h1, if_true] at he
    exact absurd he (List.not_mem_nil e)
  · by_cases h2 : (words.filter isDayWord).isEmpty
    · simp only [processPage, h1, h2, if_false, if_true] at he
      exact absurd he (List.not_mem_nil e)
    · simp only [processPage, h1, h2, if_false] at he ⊢
      exact secondPassAux_day_mem code _ _ _ 0 e he

end Crew

/-- C10: every availability entry produced by `parse_pdf_availability` is
keyed by a day appearing in the returned day list (each entry's day comes from
some page's detected day columns, all of which are unioned into the day list);
in particular an empty day list implies an empty availability map. -/
theorem Crew.availability_keys_subset_days (pages : List (List Crew.Word))
    (code : String) (valid : Option (List String)) :
    (∀ e ∈ (Crew.parse_pdf_availability pages code valid).2,
      e.1 ∈ (Crew.parse_pdf_availability pages code valid).1) ∧
    (∀ d ∈ Crew.availabilityKeys (Crew.parse_pdf_availability pages code valid).2,
      d ∈ (Crew.parse_pdf_availability pages code valid).1) ∧
    ((Crew.parse_pdf_availability pages code valid).1 = [] →
      (Crew.parse_pdf_availability pages code valid).2 = []) := by
  have hmain : ∀ e ∈ (Crew.parse_pdf_availability pages code valid).2,
      e.1 ∈ (Crew.parse_pdf_availability pages code valid).1 := by
    intro e he
    simp only [Crew.parse_pdf_availability] at he ⊢
    rcases List.mem_flatMap.1 he with ⟨pp, hpp, hepp⟩
    rcases List.mem_map.1 hpp with ⟨page, hpage, hppEq⟩
    have hday : e.1 ∈ pp.1 := by
      rw [← hppEq]
      rw [← hppEq] at hepp
      exact Crew.processPage_day_mem code _ page e hepp
    apply (Crew.sortBy_perm Crew.leDayStr _).mem_iff.2
    apply List.mem_dedup.2
    exact List.mem_flatMap.2 ⟨pp, hpp, hday⟩
  refine ⟨hmain, ?_, ?_⟩
  · intro d hd
    rcases List.mem_map.1 (List.mem_dedup.1 hd) with ⟨e, he, hde⟩
    exact hde ▸ hmain e he
  · intro hnil
    cases hc : (Crew.parse_pdf_availability pages code valid).2 with
    | nil => rfl
    | cons e rest =>
      have : e.1 ∈ (Crew.parse_pdf_availability pages code valid).1 :=
        hmain e (hc ▸ List.mem_cons_self _ _)
      rw [hnil] at this
      exact absurd this (List.not_mem_nil _)

/-- Witness for C10: with no pages the day list is empty and the
empty-day-list hypothesis is discharged by evaluation, giving an empty
availability record list. -/
theorem Crew.availability_keys_subset_days_witness :
    (Crew.parse_pdf_availability [] "A" none).2 = [] :=
  (Crew.availability_keys_subset_days [] "A" none).2.2 rfl
